import Mathlib

/-!
Verification of the Browsedower/Watchtower URL access-control service.

The definitions below are a shallow embedding of the program:
strings are `List Char`, the JavaScript glob-to-regex compiler
`patternToRegex` (extension background worker) is embedded as a string
pipeline producing a small regex token language whose semantics is the
executable matcher `rmatch`, and the Go backend operations are embedded
as pure functions on explicit store states.
-/

namespace Browsedower

/-- Convenience: string literal to character list. -/
def str (s : String) : List Char := s.toList

/-- Lowercased character list (used to model a case-insensitive regex flag). -/
def lowers (l : List Char) : List Char := l.map Char.toLower

/-- Embedding of JavaScript `String.prototype.startsWith` on char lists. -/
def isPrefixL : List Char → List Char → Bool
  | [], _ => true
  | _ :: _, [] => false
  | c :: cs, d :: ds => c == d && isPrefixL cs ds

/-- Embedding of JavaScript `String.prototype.endsWith` on char lists. -/
def endsWithL (s t : List Char) : Bool := isPrefixL t.reverse s.reverse

/-! ## Pattern compiler: `patternToRegex` (extension background worker)

The JavaScript function builds a regex source string in five steps:
escape the regex metacharacters other than `*`; replace each `**` run
by the temporary token `\x7b\x7bDOUBLE_STAR\x7d\x7d`; rewrite a
trailing `/*` to the suffix `(?:/.*)?` (and a bare trailing `*` to
`.*`); replace each remaining `*` by `[^/]*`; replace the temporary
token by `.*`; finally wrap in `^...$` with the `i` flag.  Each step is
embedded verbatim below on `List Char`. -/

/-- The character class escaped by the first replace of `patternToRegex`:
every regex metacharacter except `*`. -/
def escapeChars : List Char :=
  ['.', '+', '?', '^', '$', '{', '}', '(', ')', '|', '[', ']', '\\']

/-- Step 1 of `patternToRegex`: escape regex special characters except `*`
(JS `.replace(/[.+?^$\x7b\x7d()|[\]\\]/g, backslash-dollar-amp)`). -/
def escapeStep : List Char → List Char
  | [] => []
  | c :: rest => (if c ∈ escapeChars then ['\\', c] else [c]) ++ escapeStep rest

/-- The temporary placeholder the compiler substitutes for `**`
(the JS string `\x7b\x7bDOUBLE_STAR\x7d\x7d`). -/
def placeholderL : List Char :=
  ['{', '{', 'D', 'O', 'U', 'B', 'L', 'E', '_', 'S', 'T', 'A', 'R', '}', '}']

/-- Step 2 of `patternToRegex`: left-to-right non-overlapping replacement of
`**` by the placeholder (JS `.replace(/\*\*/g, ...)`). -/
def doubleStarStep : List Char → List Char
  | [] => []
  | c :: rest =>
    if c = '*' then
      match rest with
      | '*' :: rest' => placeholderL ++ doubleStarStep rest'
      | r => c :: doubleStarStep r
    else c :: doubleStarStep rest

/-- The raw suffix `(?:/.*)?` appended for a trailing `/*`.  Note its inner
`*` is still subject to the later single-star replacement step. -/
def trailSuffix : List Char := ['(', '?', ':', '/', '.', '*', ')', '?']

/-- Step 3 of `patternToRegex`: the trailing `/*` (resp. trailing `*`)
special cases, checked on the intermediate regex string. -/
def trailingStep (s : List Char) : List Char :=
  if endsWithL s ['/', '*'] then s.take (s.length - 2) ++ trailSuffix
  else if endsWithL s ['*'] && !(endsWithL s placeholderL) then
    s.take (s.length - 1) ++ ['.', '*']
  else s

/-- Step 4 of `patternToRegex`: replace every remaining `*` by `[^/]*`
(JS `.replace(/\*/g, '[^/]*')`), over the whole string including any
suffix appended by the trailing-case step. -/
def starStep : List Char → List Char
  | [] => []
  | c :: rest => (if c = '*' then ['[', '^', '/', ']', '*'] else [c]) ++ starStep rest

/-- Left-to-right scan of step 5: at each position, if the placeholder is a
prefix, emit `.*` and skip its 15 characters, else emit one character and
advance.  The first argument is fuel (a copy of the input, consumed once per
emitted position) that makes the scan structurally recursive; it never runs
out because every step consumes at least one input character. -/
def phGo : List Char → List Char → List Char
  | _, [] => []
  | [], s => s
  | _ :: fuel, c :: rest =>
    if isPrefixL placeholderL (c :: rest) then
      '.' :: '*' :: phGo fuel (rest.drop 14)
    else c :: phGo fuel rest

/-- Step 5 of `patternToRegex`: replace the placeholder by `.*`
(JS `.replace(/\x7b\x7bDOUBLE_STAR\x7d\x7d/g, '.*')`). -/
def placeholderStep (s : List Char) : List Char := phGo s s

/-- The regex source string built by `patternToRegex` before it is wrapped in
`^...$` and compiled with the `i` flag. -/
def patternToRegexStr (p : List Char) : List Char :=
  placeholderStep (starStep (trailingStep (doubleStarStep (escapeStep p))))

/-- The token language of the regexes that `patternToRegex` can produce:
case-insensitive literals, `.` (any non-line-terminator), `[^/]*`, `.*`,
and the compiled trailing group `(?:/.[^/]*)?`. -/
inductive RTok where
  | lit (c : Char)
  | anyChar
  | starNoSlash
  | dotStar
  | optSlashSeg
  deriving DecidableEq, Repr

/-- The source text `(?:/.[^/]*)?` of the compiled trailing group: the
suffix `(?:/.*)?` after its inner `*` has been expanded to `[^/]*`. -/
def optSuffixL : List Char :=
  ['(', '?', ':', '/', '.', '[', '^', '/', ']', '*', ')', '?']

/-- The source text `[^/]*` of the slash-free repetition. -/
def starNoSlashL : List Char := ['[', '^', '/', ']', '*']

/-- Left-to-right reading of the produced regex source string into tokens:
an escaped pair becomes a literal, the group `(?:/.[^/]*)?` and the class
repetition `[^/]*` become single tokens, `.*` becomes the any-run token,
a bare `.` the any-character token, anything else a literal.  The first
argument is fuel (a copy of the input, consumed once per token) making the
scan structurally recursive; it never runs out because every token consumes
at least one input character. -/
def prGo : List Char → List Char → List RTok
  | _, [] => []
  | [], _ :: _ => []
  | _ :: fuel, c :: rest =>
    if c = '\\' then
      match rest with
      | c' :: rest' => .lit c' :: prGo fuel rest'
      | [] => [.lit c]
    else if isPrefixL optSuffixL (c :: rest) then
      .optSlashSeg :: prGo fuel (rest.drop 11)
    else if isPrefixL starNoSlashL (c :: rest) then
      .starNoSlash :: prGo fuel (rest.drop 4)
    else if c = '.' then
      match rest with
      | '*' :: rest' => .dotStar :: prGo fuel rest'
      | r => .anyChar :: prGo fuel r
    else .lit c :: prGo fuel rest

/-- Reading of the produced regex source string into tokens.  The escaped
pairs become literals; the letter sequences `[^/]*`, `.*`, `(?:/.[^/]*)?`
produced by the pipeline become their corresponding tokens. -/
def parseRegex (s : List Char) : List RTok := prGo s s

/-- `patternToRegex` from the extension background worker: the full
compilation pipeline, as the token list of the produced regex. -/
def patternToRegex (p : List Char) : List RTok := parseRegex (patternToRegexStr p)

/-- JavaScript line terminators: `.` in a regex without the `s` flag matches
any character except these. -/
def isLineTerm (c : Char) : Bool :=
  c == '\n' || c == '\r' || c.toNat == 0x2028 || c.toNat == 0x2029

/-- Fuel-driven executable matcher for the token language: full anchored
match (`^...$`) with the case-insensitive comparison of the `i` flag. -/
def rmatchF : Nat → List RTok → List Char → Bool
  | 0, _, _ => false
  | _ + 1, [], [] => true
  | _ + 1, [], _ :: _ => false
  | f + 1, .lit c :: ts, ds =>
      match ds with
      | [] => false
      | d :: ds' => (c.toLower == d.toLower) && rmatchF f ts ds'
  | f + 1, .anyChar :: ts, ds =>
      match ds with
      | [] => false
      | d :: ds' => !isLineTerm d && rmatchF f ts ds'
  | f + 1, .starNoSlash :: ts, ds =>
      rmatchF f ts ds ||
        (match ds with
         | [] => false
         | d :: ds' => d != '/' && rmatchF f (.starNoSlash :: ts) ds')
  | f + 1, .dotStar :: ts, ds =>
      rmatchF f ts ds ||
        (match ds with
         | [] => false
         | d :: ds' => !isLineTerm d && rmatchF f (.dotStar :: ts) ds')
  | f + 1, .optSlashSeg :: ts, ds =>
      rmatchF f ts ds ||
        (match ds with
         | '/' :: d :: ds' => !isLineTerm d && rmatchF f (.starNoSlash :: ts) ds'
         | _ => false)

/-- Fuel sufficient for any match attempt of `ts` against `ds`. -/
def matchFuel (ts : List RTok) (ds : List Char) : Nat :=
  2 * ds.length + ts.length + 1

/-- Anchored case-insensitive match of a compiled pattern against a
candidate string (the `regex.test` call of `matchesPattern`). -/
def rmatch (ts : List RTok) (ds : List Char) : Bool := rmatchF (matchFuel ts ds) ts ds

/-- Declarative matching relation for the token language, used to reason
about `rmatch` without fuel bookkeeping. -/
inductive RMatch : List RTok → List Char → Prop where
  | nil : RMatch [] []
  | lit {c d ts ds} : c.toLower = d.toLower → RMatch ts ds → RMatch (.lit c :: ts) (d :: ds)
  | anyChar {d ts ds} : isLineTerm d = false → RMatch ts ds → RMatch (.anyChar :: ts) (d :: ds)
  | starSkip {ts ds} : RMatch ts ds → RMatch (.starNoSlash :: ts) ds
  | starCons {d ts ds} : d ≠ '/' → RMatch (.starNoSlash :: ts) ds →
      RMatch (.starNoSlash :: ts) (d :: ds)
  | dotSkip {ts ds} : RMatch ts ds → RMatch (.dotStar :: ts) ds
  | dotCons {d ts ds} : isLineTerm d = false → RMatch (.dotStar :: ts) ds →
      RMatch (.dotStar :: ts) (d :: ds)
  | optSkip {ts ds} : RMatch ts ds → RMatch (.optSlashSeg :: ts) ds
  | optTake {d ts ds} : isLineTerm d = false → RMatch (.starNoSlash :: ts) ds →
      RMatch (.optSlashSeg :: ts) ('/' :: d :: ds)

theorem rmatchF_sound : ∀ (f : Nat) (ts : List RTok) (ds : List Char),
    rmatchF f ts ds = true → RMatch ts ds := by
  intro f
  induction f with
  | zero => intro ts ds h; simp [rmatchF] at h
  | succ f ih =>
    intro ts ds h
    match ts, ds with
    | [], [] => exact RMatch.nil
    | [], _ :: _ => simp [rmatchF] at h
    | .lit c :: ts, ds =>
      match ds with
      | [] => simp [rmatchF] at h
      | d :: ds' =>
        simp only [rmatchF, Bool.and_eq_true, beq_iff_eq] at h
        exact RMatch.lit h.1 (ih _ _ h.2)
    | .anyChar :: ts, ds =>
      match ds with
      | [] => simp [rmatchF] at h
      | d :: ds' =>
        simp only [rmatchF, Bool.and_eq_true, Bool.not_eq_true'] at h
        exact RMatch.anyChar h.1 (ih _ _ h.2)
    | .starNoSlash :: ts, ds =>
      simp only [rmatchF, Bool.or_eq_true] at h
      rcases h with h | h
      · exact RMatch.starSkip (ih _ _ h)
      · split at h
        · exact absurd h (by simp)
        · simp only [Bool.and_eq_true, bne_iff_ne] at h
          exact RMatch.starCons h.1 (ih _ _ h.2)
    | .dotStar :: ts, ds =>
      simp only [rmatchF, Bool.or_eq_true] at h
      rcases h with h | h
      · exact RMatch.dotSkip (ih _ _ h)
      · split at h
        · exact absurd h (by simp)
        · simp only [Bool.and_eq_true, Bool.not_eq_true'] at h
          exact RMatch.dotCons h.1 (ih _ _ h.2)
    | .optSlashSeg :: ts, ds =>
      simp only [rmatchF, Bool.or_eq_true] at h
      rcases h with h | h
      · exact RMatch.optSkip (ih _ _ h)
      · split at h
        · simp only [Bool.and_eq_true, Bool.not_eq_true'] at h
          exact RMatch.optTake h.1 (ih _ _ h.2)
        · exact absurd h (by simp)

theorem RMatch.complete {ts : List RTok} {ds : List Char} (h : RMatch ts ds) :
    ∀ f, 2 * ds.length + ts.length < f → rmatchF f ts ds = true := by
  induction h with
  | nil =>
    intro f hf
    match f, hf with
    | f + 1, _ => rfl
  | lit hc _ ih =>
    intro f hf
    match f, hf with
    | f + 1, hf =>
      simp only [rmatchF, Bool.and_eq_true, beq_iff_eq]
      refine ⟨hc, ih f ?_⟩
      simp only [List.length_cons] at hf ⊢
      omega
  | anyChar hd _ ih =>
    intro f hf
    match f, hf with
    | f + 1, hf =>
      simp only [rmatchF, Bool.and_eq_true, Bool.not_eq_true', hd, true_and]
      refine ih f ?_
      simp only [List.length_cons] at hf ⊢
      omega
  | starSkip _ ih =>
    intro f hf
    match f, hf with
    | f + 1, hf =>
      simp only [rmatchF, Bool.or_eq_true]
      refine Or.inl (ih f ?_)
      simp only [List.length_cons] at hf ⊢
      omega
  | starCons hd _ ih =>
    intro f hf
    match f, hf with
    | f + 1, hf =>
      simp only [rmatchF, Bool.or_eq_true, Bool.and_eq_true, bne_iff_ne]
      refine Or.inr ⟨hd, ih f ?_⟩
      simp only [List.length_cons] at hf ⊢
      omega
  | dotSkip _ ih =>
    intro f hf
    match f, hf with
    | f + 1, hf =>
      simp only [rmatchF, Bool.or_eq_true]
      refine Or.inl (ih f ?_)
      simp only [List.length_cons] at hf ⊢
      omega
  | dotCons hd _ ih =>
    intro f hf
    match f, hf with
    | f + 1, hf =>
      simp only [rmatchF, Bool.or_eq_true, Bool.and_eq_true, Bool.not_eq_true', hd, true_and]
      refine Or.inr (ih f ?_)
      simp only [List.length_cons] at hf ⊢
      omega
  | optSkip _ ih =>
    intro f hf
    match f, hf with
    | f + 1, hf =>
      simp only [rmatchF, Bool.or_eq_true]
      refine Or.inl (ih f ?_)
      simp only [List.length_cons] at hf ⊢
      omega
  | optTake hd _ ih =>
    intro f hf
    match f, hf with
    | f + 1, hf =>
      simp only [rmatchF, Bool.or_eq_true, Bool.and_eq_true, Bool.not_eq_true', hd, true_and]
      refine Or.inr (ih f ?_)
      simp only [List.length_cons] at hf ⊢
      omega

theorem rmatch_iff {ts : List RTok} {ds : List Char} :
    rmatch ts ds = true ↔ RMatch ts ds := by
  constructor
  · exact rmatchF_sound _ _ _
  · intro h
    refine h.complete _ ?_
    simp [matchFuel]

theorem RMatch.nil_left {ds : List Char} (h : RMatch [] ds) : ds = [] := by
  cases h; rfl

/-- A run of literal tokens followed by `ts` matches `ds` exactly when `ds`
splits into a case-insensitive copy of the literals and a remainder
matching `ts`. -/
theorem RMatch_lits_iff {A : List Char} {ts : List RTok} {ds : List Char} :
    RMatch (A.map RTok.lit ++ ts) ds ↔
      ∃ p q, ds = p ++ q ∧ lowers p = lowers A ∧ RMatch ts q := by
  induction A generalizing ds with
  | nil =>
    simp only [List.map_nil, List.nil_append]
    constructor
    · intro h; exact ⟨[], ds, rfl, rfl, h⟩
    · rintro ⟨p, q, hds, hp, hq⟩
      have hpnil : p = [] := by
        cases p with
        | nil => rfl
        | cons _ _ => simp [lowers] at hp
      subst hpnil
      simpa [hds] using hq
  | cons c A ih =>
    constructor
    · intro h
      cases h with
      | lit hc h' =>
        rename_i d ds0
        rcases ih.mp h' with ⟨p, q, hds, hp, hq⟩
        exact ⟨d :: p, q, by simp [hds], by simp [lowers] at hp ⊢; exact ⟨hc.symm, hp⟩, hq⟩
    · rintro ⟨p, q, hds, hp, hq⟩
      cases p with
      | nil => simp [lowers] at hp
      | cons d p' =>
        simp only [lowers, List.map_cons, List.cons.injEq] at hp
        subst hds
        exact RMatch.lit hp.1.symm (ih.mpr ⟨p', q, rfl, hp.2, hq⟩)

theorem RMatch_star_fwd {u : List RTok} {ds : List Char} (h : RMatch u ds) :
    ∀ {ts : List RTok}, u = .starNoSlash :: ts →
      ∃ p q, ds = p ++ q ∧ (∀ c ∈ p, c ≠ '/') ∧ RMatch ts q := by
  induction h with
  | nil => intro ts hu; simp at hu
  | lit hc h' ih => intro ts hu; simp at hu
  | anyChar hd h' ih => intro ts hu; simp at hu
  | starSkip h' ih =>
    intro ts hu
    cases hu
    exact ⟨[], _, rfl, by simp, h'⟩
  | starCons hd h' ih =>
    intro ts hu
    cases hu
    rename_i d ts0 ds0
    rcases ih rfl with ⟨p, q, hds, hp, hq⟩
    refine ⟨d :: p, q, by simp [hds], ?_, hq⟩
    intro c hc
    rcases List.mem_cons.mp hc with rfl | hc2
    · exact hd
    · exact hp c hc2
  | dotSkip h' ih => intro ts hu; simp at hu
  | dotCons hd h' ih => intro ts hu; simp at hu
  | optSkip h' ih => intro ts hu; simp at hu
  | optTake hd h' ih => intro ts hu; simp at hu

/-- The token `[^/]*` followed by `ts` matches `ds` exactly when `ds` splits
into a slash-free run and a remainder matching `ts`. -/
theorem RMatch_star_iff {ts : List RTok} {ds : List Char} :
    RMatch (.starNoSlash :: ts) ds ↔
      ∃ p q, ds = p ++ q ∧ (∀ c ∈ p, c ≠ '/') ∧ RMatch ts q := by
  constructor
  · intro h; exact RMatch_star_fwd h rfl
  · rintro ⟨p, q, hds, hp, hq⟩
    subst hds
    induction p with
    | nil => exact RMatch.starSkip hq
    | cons d p' ih =>
      refine RMatch.starCons (hp d (by simp)) (ih ?_)
      intro c hc
      exact hp c (by simp [hc])

theorem RMatch_dot_fwd {u : List RTok} {ds : List Char} (h : RMatch u ds) :
    ∀ {ts : List RTok}, u = .dotStar :: ts →
      ∃ p q, ds = p ++ q ∧ (∀ c ∈ p, isLineTerm c = false) ∧ RMatch ts q := by
  induction h with
  | nil => intro ts hu; simp at hu
  | lit hc h' ih => intro ts hu; simp at hu
  | anyChar hd h' ih => intro ts hu; simp at hu
  | starSkip h' ih => intro ts hu; simp at hu
  | starCons hd h' ih => intro ts hu; simp at hu
  | dotSkip h' ih =>
    intro ts hu
    cases hu
    exact ⟨[], _, rfl, by simp, h'⟩
  | dotCons hd h' ih =>
    intro ts hu
    cases hu
    rename_i d ts0 ds0
    rcases ih rfl with ⟨p, q, hds, hp, hq⟩
    refine ⟨d :: p, q, by simp [hds], ?_, hq⟩
    intro c hc
    rcases List.mem_cons.mp hc with rfl | hc2
    · exact hd
    · exact hp c hc2
  | optSkip h' ih => intro ts hu; simp at hu
  | optTake hd h' ih => intro ts hu; simp at hu

/-- The token `.*` followed by `ts` matches `ds` exactly when `ds` splits into
a line-terminator-free run (slashes allowed) and a remainder matching `ts`. -/
theorem RMatch_dot_iff {ts : List RTok} {ds : List Char} :
    RMatch (.dotStar :: ts) ds ↔
      ∃ p q, ds = p ++ q ∧ (∀ c ∈ p, isLineTerm c = false) ∧ RMatch ts q := by
  constructor
  · intro h; exact RMatch_dot_fwd h rfl
  · rintro ⟨p, q, hds, hp, hq⟩
    subst hds
    induction p with
    | nil => exact RMatch.dotSkip hq
    | cons d p' ih =>
      refine RMatch.dotCons (hp d (by simp)) (ih ?_)
      intro c hc
      exact hp c (by simp [hc])

/-- A pure literal run matches exactly the case-insensitive copies of the
literals. -/
theorem RMatch_lits_end_iff {A ds : List Char} :
    RMatch (A.map RTok.lit) ds ↔ lowers ds = lowers A := by
  have h0 : RMatch (A.map RTok.lit ++ []) ds ↔
      ∃ p q, ds = p ++ q ∧ lowers p = lowers A ∧ RMatch [] q := RMatch_lits_iff
  simp only [List.append_nil] at h0
  rw [h0]
  constructor
  · rintro ⟨p, q, hds, hp, hq⟩
    have := hq.nil_left
    subst this
    simpa [hds] using hp
  · intro h
    exact ⟨ds, [], by simp, h, RMatch.nil⟩

/-! ## Structure of compiled patterns of the shapes `a ** b` and `a * b` -/

theorem escapeStep_append (a b : List Char) :
    escapeStep (a ++ b) = escapeStep a ++ escapeStep b := by
  induction a with
  | nil => rfl
  | cons c a ih => simp [escapeStep, ih]

theorem mem_escapeStep {c₀ : Char} (h : c₀ ≠ '\\') (a : List Char) :
    c₀ ∈ escapeStep a ↔ c₀ ∈ a := by
  induction a with
  | nil => simp [escapeStep]
  | cons c a ih =>
    by_cases hc : c ∈ escapeChars
    · simp [escapeStep, hc, ih, h]
    · simp [escapeStep, hc, ih]

theorem escapeStep_ne_nil {a : List Char} (h : a ≠ []) : escapeStep a ≠ [] := by
  cases a with
  | nil => exact absurd rfl h
  | cons c a =>
    by_cases hc : c ∈ escapeChars <;> simp [escapeStep, hc]

theorem escapeStep_star (b : List Char) : escapeStep ('*' :: b) = '*' :: escapeStep b := by
  have : ('*' : Char) ∉ escapeChars := by decide
  simp [escapeStep, this]

theorem dss_cons_ne {c : Char} (h : c ≠ '*') (s : List Char) :
    doubleStarStep (c :: s) = c :: doubleStarStep s := by
  rw [doubleStarStep.eq_def]
  simp [h]

theorem dss_starstar (s : List Char) :
    doubleStarStep ('*' :: '*' :: s) = placeholderL ++ doubleStarStep s := rfl

theorem dss_star_cons_ne {d : Char} (h : d ≠ '*') (s : List Char) :
    doubleStarStep ('*' :: d :: s) = '*' :: doubleStarStep (d :: s) := by
  rw [doubleStarStep.eq_def]
  simp only [if_pos rfl]
  split
  · rename_i heq
    simp_all
  · rfl

theorem dss_no_star {s : List Char} (h : '*' ∉ s) : doubleStarStep s = s := by
  induction s with
  | nil => rfl
  | cons c s ih =>
    have hc : c ≠ '*' := fun hc => h (by simp [hc])
    rw [dss_cons_ne hc, ih (fun hm => h (by simp [hm]))]

theorem dss_append_single {a b : List Char} (ha : '*' ∉ a) (hb : '*' ∉ b) :
    doubleStarStep (a ++ '*' :: b) = a ++ '*' :: b := by
  induction a with
  | nil =>
    simp only [List.nil_append]
    cases b with
    | nil => rfl
    | cons d b' =>
      have hd : d ≠ '*' := fun hd => hb (by simp [hd])
      rw [dss_star_cons_ne hd, dss_no_star hb]
  | cons c a ih =>
    have hc : c ≠ '*' := fun hc => ha (by simp [hc])
    simp only [List.cons_append]
    rw [dss_cons_ne hc, ih (fun hm => ha (by simp [hm]))]

theorem dss_append_double {a b : List Char} (ha : '*' ∉ a) (hb : '*' ∉ b) :
    doubleStarStep (a ++ '*' :: '*' :: b) = a ++ placeholderL ++ b := by
  induction a with
  | nil => simp [dss_starstar, dss_no_star hb]
  | cons c a ih =>
    have hc : c ≠ '*' := fun hc => ha (by simp [hc])
    simp only [List.cons_append]
    rw [dss_cons_ne hc, ih (fun hm => ha (by simp [hm]))]

theorem isPrefixL_star_false {t r : List Char}
    (h : ∀ c, r.head? = some c → c ≠ '*') : isPrefixL ('*' :: t) r = false := by
  cases r with
  | nil => rfl
  | cons c r' =>
    have hc : c ≠ '*' := h c rfl
    have hb : ('*' == c) = false := beq_eq_false_iff_ne.mpr (Ne.symm hc)
    simp [isPrefixL, hb]

theorem trailingStep_id {s : List Char}
    (h : ∀ c, s.reverse.head? = some c → c ≠ '*') : trailingStep s = s := by
  have e1 : (['/', '*'] : List Char).reverse = '*' :: ['/'] := rfl
  have e2 : (['*'] : List Char).reverse = '*' :: [] := rfl
  have h1 : endsWithL s ['/', '*'] = false := by
    rw [endsWithL, e1]; exact isPrefixL_star_false h
  have h2 : endsWithL s ['*'] = false := by
    rw [endsWithL, e2]; exact isPrefixL_star_false h
  simp [trailingStep, h1, h2]

theorem trailingStep_id_of_no_star {s : List Char} (h : '*' ∉ s) :
    trailingStep s = s := by
  refine trailingStep_id ?_
  intro c hc
  have hmem : c ∈ s.reverse := by
    cases hr : s.reverse with
    | nil => rw [hr] at hc; exact absurd hc (by simp)
    | cons d t =>
      rw [hr] at hc
      simp only [List.head?_cons, Option.some.injEq] at hc
      subst hc
      simp
  exact fun h' => h (h' ▸ (List.mem_reverse.mp hmem))

theorem ss_cons_ne {c : Char} (h : c ≠ '*') (s : List Char) :
    starStep (c :: s) = c :: starStep s := by
  rw [starStep.eq_def]
  simp [h]

theorem ss_star (s : List Char) :
    starStep ('*' :: s) = '[' :: '^' :: '/' :: ']' :: '*' :: starStep s := rfl

theorem ss_no_star {s : List Char} (h : '*' ∉ s) : starStep s = s := by
  induction s with
  | nil => rfl
  | cons c s ih =>
    have hc : c ≠ '*' := fun hc => h (by simp [hc])
    rw [ss_cons_ne hc, ih (fun hm => h (by simp [hm]))]

theorem ss_append (a b : List Char) : starStep (a ++ b) = starStep a ++ starStep b := by
  induction a with
  | nil => rfl
  | cons c a ih =>
    by_cases hc : c = '*'
    · subst hc; simp only [List.cons_append, ss_star, ih]
    · simp only [List.cons_append, ss_cons_ne hc, ih]

theorem isPrefixL_self_append (t r : List Char) : isPrefixL t (t ++ r) = true := by
  induction t with
  | nil => rfl
  | cons c t ih => simp [isPrefixL, ih]

theorem isPrefixL_head_ne {c₀ c : Char} (h : c₀ ≠ c) (t r : List Char) :
    isPrefixL (c₀ :: t) (c :: r) = false := by
  simp [isPrefixL, beq_eq_false_iff_ne.mpr h]

theorem phGo_fuel_irrel : ∀ (f₁ : List Char) (s f₂ : List Char),
    s.length ≤ f₁.length → s.length ≤ f₂.length → phGo f₁ s = phGo f₂ s := by
  intro f₁
  induction f₁ with
  | nil =>
    intro s f₂ h₁ _
    have : s = [] := List.eq_nil_of_length_eq_zero (Nat.le_zero.mp h₁)
    subst this
    cases f₂ <;> rfl
  | cons x f₁ ih =>
    intro s f₂ h₁ h₂
    cases s with
    | nil => cases f₂ <;> rfl
    | cons c rest =>
      cases f₂ with
      | nil => simp at h₂
      | cons y f₂ =>
        simp only [phGo]
        by_cases hp : isPrefixL placeholderL (c :: rest) = true
        · rw [if_pos hp, if_pos hp]
          have hd : (rest.drop 14).length ≤ f₁.length := by
            have := List.length_drop 14 rest
            simp only [List.length_cons] at h₁
            omega
          have hd₂ : (rest.drop 14).length ≤ f₂.length := by
            have := List.length_drop 14 rest
            simp only [List.length_cons] at h₂
            omega
          rw [ih _ _ hd hd₂]
        · rw [if_neg hp, if_neg hp]
          have hr : rest.length ≤ f₁.length := by
            simp only [List.length_cons] at h₁; omega
          have hr₂ : rest.length ≤ f₂.length := by
            simp only [List.length_cons] at h₂; omega
          rw [ih _ _ hr hr₂]

theorem phGo_cons (x : Char) (fuel : List Char) (c : Char) (rest : List Char) :
    phGo (x :: fuel) (c :: rest) =
      if isPrefixL placeholderL (c :: rest) then '.' :: '*' :: phGo fuel (rest.drop 14)
      else c :: phGo fuel rest := rfl

theorem ph_cons_ne {c : Char} (h : c ≠ '{') (s : List Char) :
    placeholderStep (c :: s) = c :: placeholderStep s := by
  have hp : isPrefixL placeholderL (c :: s) = false :=
    isPrefixL_head_ne (fun he => h he.symm) _ _
  show phGo (c :: s) (c :: s) = c :: phGo s s
  rw [phGo_cons, if_neg (by simp [hp])]

theorem ph_placeholder (s : List Char) :
    placeholderStep (placeholderL ++ s) = '.' :: '*' :: placeholderStep s := by
  show phGo (placeholderL ++ s) (placeholderL ++ s) = _
  have e : placeholderL ++ s =
      '{' :: ('{' :: 'D' :: 'O' :: 'U' :: 'B' :: 'L' :: 'E' :: '_' :: 'S' :: 'T' :: 'A' :: 'R' :: '}' :: '}' :: s) := rfl
  rw [e, phGo_cons, if_pos (by rw [← e]; exact isPrefixL_self_append _ _)]
  have hdrop :
      ('{' :: 'D' :: 'O' :: 'U' :: 'B' :: 'L' :: 'E' :: '_' :: 'S' :: 'T' :: 'A' :: 'R' :: '}' :: '}' :: s).drop 14 = s := rfl
  rw [hdrop]
  refine congrArg (fun l => '.' :: '*' :: l) ?_
  refine phGo_fuel_irrel _ _ _ ?_ (Nat.le_refl _)
  simp
  omega

theorem ph_no_brace {s : List Char} (h : '{' ∉ s) : placeholderStep s = s := by
  induction s with
  | nil => rfl
  | cons c s ih =>
    have hc : c ≠ '{' := fun hc => h (by simp [hc])
    rw [ph_cons_ne hc, ih (fun hm => h (by simp [hm]))]

theorem ph_mid {a b : List Char} (ha : '{' ∉ a) (hb : '{' ∉ b) :
    placeholderStep (a ++ placeholderL ++ b) = a ++ '.' :: '*' :: b := by
  induction a with
  | nil => simp [ph_placeholder, ph_no_brace hb]
  | cons c a ih =>
    have hc : c ≠ '{' := fun hc => ha (by simp [hc])
    simp only [List.cons_append]
    rw [ph_cons_ne hc, ih (fun hm => ha (by simp [hm]))]

theorem prGo_cons (x : Char) (fuel : List Char) (c : Char) (rest : List Char) :
    prGo (x :: fuel) (c :: rest) =
      if c = '\\' then
        match rest with
        | c' :: rest' => .lit c' :: prGo fuel rest'
        | [] => [.lit c]
      else if isPrefixL optSuffixL (c :: rest) then .optSlashSeg :: prGo fuel (rest.drop 11)
      else if isPrefixL starNoSlashL (c :: rest) then .starNoSlash :: prGo fuel (rest.drop 4)
      else if c = '.' then
        match rest with
        | '*' :: rest' => .dotStar :: prGo fuel rest'
        | r => .anyChar :: prGo fuel r
      else .lit c :: prGo fuel rest := rfl

theorem prGo_nil (f : List Char) : prGo f [] = [] := by cases f <;> rfl

theorem prGo_fuel_irrel : ∀ (f₁ : List Char) (s f₂ : List Char),
    s.length ≤ f₁.length → s.length ≤ f₂.length → prGo f₁ s = prGo f₂ s := by
  intro f₁
  induction f₁ with
  | nil =>
    intro s f₂ h₁ _
    have : s = [] := List.eq_nil_of_length_eq_zero (Nat.le_zero.mp h₁)
    subst this
    cases f₂ <;> rfl
  | cons x f₁ ih =>
    intro s f₂ h₁ h₂
    cases s with
    | nil => cases f₂ <;> rfl
    | cons c rest =>
      cases f₂ with
      | nil => simp at h₂
      | cons y f₂ =>
        simp only [List.length_cons] at h₁ h₂
        rw [prGo_cons, prGo_cons]
        by_cases hb : c = '\\'
        · rw [if_pos hb, if_pos hb]
          cases rest with
          | nil => rfl
          | cons c' rest' =>
            have hl : rest'.length ≤ f₁.length := by
              simp only [List.length_cons] at h₁; omega
            have hl₂ : rest'.length ≤ f₂.length := by
              simp only [List.length_cons] at h₂; omega
            exact congrArg _ (ih _ _ hl hl₂)
        · rw [if_neg hb, if_neg hb]
          by_cases ho : isPrefixL optSuffixL (c :: rest) = true
          · rw [if_pos ho, if_pos ho]
            have hl : (rest.drop 11).length ≤ f₁.length := by
              have := List.length_drop 11 rest; omega
            have hl₂ : (rest.drop 11).length ≤ f₂.length := by
              have := List.length_drop 11 rest; omega
            exact congrArg _ (ih _ _ hl hl₂)
          · rw [if_neg ho, if_neg ho]
            by_cases hs : isPrefixL starNoSlashL (c :: rest) = true
            · rw [if_pos hs, if_pos hs]
              have hl : (rest.drop 4).length ≤ f₁.length := by
                have := List.length_drop 4 rest; omega
              have hl₂ : (rest.drop 4).length ≤ f₂.length := by
                have := List.length_drop 4 rest; omega
              exact congrArg _ (ih _ _ hl hl₂)
            · rw [if_neg hs, if_neg hs]
              by_cases hd : c = '.'
              · rw [if_pos hd, if_pos hd]
                cases rest with
                | nil =>
                  rw [show (match ([] : List Char) with
                      | '*' :: rest' => RTok.dotStar :: prGo f₁ rest'
                      | r => RTok.anyChar :: prGo f₁ r) =
                      RTok.anyChar :: prGo f₁ [] from rfl]
                  rw [show (match ([] : List Char) with
                      | '*' :: rest' => RTok.dotStar :: prGo f₂ rest'
                      | r => RTok.anyChar :: prGo f₂ r) =
                      RTok.anyChar :: prGo f₂ [] from rfl]
                  rw [prGo_nil, prGo_nil]
                | cons d rest' =>
                  by_cases hstar : d = '*'
                  · subst hstar
                    have hl : rest'.length ≤ f₁.length := by
                      simp only [List.length_cons] at h₁; omega
                    have hl₂ : rest'.length ≤ f₂.length := by
                      simp only [List.length_cons] at h₂; omega
                    exact congrArg _ (ih _ _ hl hl₂)
                  · have hl : (d :: rest').length ≤ f₁.length := by
                      simp only [List.length_cons] at h₁ ⊢; omega
                    have hl₂ : (d :: rest').length ≤ f₂.length := by
                      simp only [List.length_cons] at h₂ ⊢; omega
                    have e₁ : (match d :: rest' with
                        | '*' :: rest' => RTok.dotStar :: prGo f₁ rest'
                        | r => RTok.anyChar :: prGo f₁ r) =
                        RTok.anyChar :: prGo f₁ (d :: rest') := by
                      split
                      · rename_i heq; simp_all
                      · rfl
                    have e₂ : (match d :: rest' with
                        | '*' :: rest' => RTok.dotStar :: prGo f₂ rest'
                        | r => RTok.anyChar :: prGo f₂ r) =
                        RTok.anyChar :: prGo f₂ (d :: rest') := by
                      split
                      · rename_i heq; simp_all
                      · rfl
                    rw [e₁, e₂]
                    exact congrArg _ (ih _ _ hl hl₂)
              · rw [if_neg hd, if_neg hd]
                exact congrArg _ (ih _ _ (by omega) (by omega))

theorem pr_nil : parseRegex [] = [] := rfl

theorem pr_backslash (c : Char) (rest : List Char) :
    parseRegex ('\\' :: c :: rest) = .lit c :: parseRegex rest := by
  show prGo ('\\' :: c :: rest) ('\\' :: c :: rest) = _
  rw [prGo_cons, if_pos rfl]
  exact congrArg _ (prGo_fuel_irrel _ _ _ (by simp) (Nat.le_refl _))

theorem pr_plain {c : Char} (h1 : c ≠ '\\') (h2 : c ≠ '(') (h3 : c ≠ '[') (h4 : c ≠ '.')
    (rest : List Char) : parseRegex (c :: rest) = .lit c :: parseRegex rest := by
  show prGo (c :: rest) (c :: rest) = _
  have hop : isPrefixL optSuffixL (c :: rest) = false := by
    rw [show optSuffixL = '(' :: ['?', ':', '/', '.', '[', '^', '/', ']', '*', ')', '?'] from rfl]
    exact isPrefixL_head_ne (fun he => h2 he.symm) _ _
  have hsp : isPrefixL starNoSlashL (c :: rest) = false := by
    rw [show starNoSlashL = '[' :: ['^', '/', ']', '*'] from rfl]
    exact isPrefixL_head_ne (fun he => h3 he.symm) _ _
  rw [prGo_cons, if_neg h1, if_neg (by simp [hop]), if_neg (by simp [hsp]), if_neg h4]
  rfl

theorem pr_opt (rest : List Char) :
    parseRegex (optSuffixL ++ rest) = .optSlashSeg :: parseRegex rest := by
  show prGo (optSuffixL ++ rest) (optSuffixL ++ rest) = _
  have e : optSuffixL ++ rest =
      '(' :: ('?' :: ':' :: '/' :: '.' :: '[' :: '^' :: '/' :: ']' :: '*' :: ')' :: '?' :: rest) := rfl
  rw [e, prGo_cons, if_neg (by decide),
    if_pos (by rw [← e]; exact isPrefixL_self_append _ _)]
  have hdrop : ('?' :: ':' :: '/' :: '.' :: '[' :: '^' :: '/' :: ']' :: '*' :: ')' :: '?' :: rest).drop 11 = rest := rfl
  rw [hdrop]
  refine congrArg _ (prGo_fuel_irrel _ _ _ ?_ (Nat.le_refl _))
  simp
  omega

theorem pr_star5 (rest : List Char) :
    parseRegex (starNoSlashL ++ rest) = .starNoSlash :: parseRegex rest := by
  show prGo (starNoSlashL ++ rest) (starNoSlashL ++ rest) = _
  have e : starNoSlashL ++ rest = '[' :: ('^' :: '/' :: ']' :: '*' :: rest) := rfl
  have hop : isPrefixL optSuffixL ('[' :: ('^' :: '/' :: ']' :: '*' :: rest)) = false := by
    rw [show optSuffixL = '(' :: ['?', ':', '/', '.', '[', '^', '/', ']', '*', ')', '?'] from rfl]
    exact isPrefixL_head_ne (by decide) _ _
  rw [e, prGo_cons, if_neg (by decide), if_neg (by simp [hop]),
    if_pos (by rw [← e]; exact isPrefixL_self_append _ _)]
  have hdrop : ('^' :: '/' :: ']' :: '*' :: rest).drop 4 = rest := rfl
  rw [hdrop]
  refine congrArg _ (prGo_fuel_irrel _ _ _ ?_ (Nat.le_refl _))
  simp
  omega

theorem pr_dotstar (rest : List Char) :
    parseRegex ('.' :: '*' :: rest) = .dotStar :: parseRegex rest := by
  show prGo ('.' :: '*' :: rest) ('.' :: '*' :: rest) = _
  have hop : isPrefixL optSuffixL ('.' :: '*' :: rest) = false := by
    rw [show optSuffixL = '(' :: ['?', ':', '/', '.', '[', '^', '/', ']', '*', ')', '?'] from rfl]
    exact isPrefixL_head_ne (by decide) _ _
  have hsp : isPrefixL starNoSlashL ('.' :: '*' :: rest) = false := by
    rw [show starNoSlashL = '[' :: ['^', '/', ']', '*'] from rfl]
    exact isPrefixL_head_ne (by decide) _ _
  rw [prGo_cons, if_neg (by decide), if_neg (by simp [hop]), if_neg (by simp [hsp]),
    if_pos rfl]
  exact congrArg _ (prGo_fuel_irrel _ _ _ (by simp) (Nat.le_refl _))

theorem pr_esc (a : List Char) (r : List Char) :
    parseRegex (escapeStep a ++ r) = a.map RTok.lit ++ parseRegex r := by
  induction a with
  | nil => rfl
  | cons c a ih =>
    by_cases hc : c ∈ escapeChars
    · have e : escapeStep (c :: a) ++ r = '\\' :: c :: (escapeStep a ++ r) := by
        simp [escapeStep, hc]
      rw [e, pr_backslash, ih]
      rfl
    · have e : escapeStep (c :: a) ++ r = c :: (escapeStep a ++ r) := by
        simp [escapeStep, hc]
      have h1 : c ≠ '\\' := fun h => hc (by rw [h]; decide)
      have h2 : c ≠ '(' := fun h => hc (by rw [h]; decide)
      have h3 : c ≠ '[' := fun h => hc (by rw [h]; decide)
      have h4 : c ≠ '.' := fun h => hc (by rw [h]; decide)
      rw [e, pr_plain h1 h2 h3 h4, ih]
      rfl

theorem escapeStep_no_star {a : List Char} (ha : '*' ∉ a) : '*' ∉ escapeStep a :=
  fun hm => ha ((mem_escapeStep (by decide) a).mp hm)

theorem escapeStep_no_brace {a : List Char} (ha : '{' ∉ a) : '{' ∉ escapeStep a :=
  fun hm => ha ((mem_escapeStep (by decide) a).mp hm)

/-- A pattern of the shape `a ** b` (with no other wildcard and no brace in
`a`, `b`) compiles to the literals of `a`, the any-run token, and the
literals of `b`. -/
theorem patternToRegex_doublestar {a b : List Char}
    (ha : '*' ∉ a) (hb : '*' ∉ b) (ha2 : '{' ∉ a) (hb2 : '{' ∉ b) :
    patternToRegex (a ++ '*' :: '*' :: b) =
      a.map RTok.lit ++ RTok.dotStar :: b.map RTok.lit := by
  have hesc : escapeStep (a ++ '*' :: '*' :: b) =
      escapeStep a ++ '*' :: '*' :: escapeStep b := by
    rw [escapeStep_append, escapeStep_star, escapeStep_star]
  have hea := escapeStep_no_star ha
  have heb := escapeStep_no_star hb
  have hba := escapeStep_no_brace ha2
  have hbb := escapeStep_no_brace hb2
  have hsmid : '*' ∉ escapeStep a ++ placeholderL ++ escapeStep b := by
    intro hm
    rcases List.mem_append.mp hm with hm | hm
    · rcases List.mem_append.mp hm with hm | hm
      · exact hea hm
      · revert hm; decide
    · exact heb hm
  rw [patternToRegex, patternToRegexStr, hesc, dss_append_double hea heb,
    trailingStep_id_of_no_star hsmid, ss_no_star hsmid]
  have hphm : placeholderStep (escapeStep a ++ placeholderL ++ escapeStep b) =
      escapeStep a ++ '.' :: '*' :: escapeStep b := ph_mid hba hbb
  rw [hphm, pr_esc, pr_dotstar]
  have hb' := pr_esc b []
  simp only [List.append_nil, pr_nil] at hb'
  rw [hb']

/-- A pattern of the shape `a * b` with nonempty `b` (so the star is in
neither trailing position) compiles to the literals of `a`, the slash-free
run token, and the literals of `b`. -/
theorem patternToRegex_singlestar {a b : List Char}
    (ha : '*' ∉ a) (hb : '*' ∉ b) (ha2 : '{' ∉ a) (hb2 : '{' ∉ b) (hbne : b ≠ []) :
    patternToRegex (a ++ '*' :: b) =
      a.map RTok.lit ++ RTok.starNoSlash :: b.map RTok.lit := by
  have hesc : escapeStep (a ++ '*' :: b) = escapeStep a ++ '*' :: escapeStep b := by
    rw [escapeStep_append, escapeStep_star]
  have hea := escapeStep_no_star ha
  have heb := escapeStep_no_star hb
  have hba := escapeStep_no_brace ha2
  have hbb := escapeStep_no_brace hb2
  have hebne : escapeStep b ≠ [] := escapeStep_ne_nil hbne
  have htrail : trailingStep (escapeStep a ++ '*' :: escapeStep b) =
      escapeStep a ++ '*' :: escapeStep b := by
    refine trailingStep_id ?_
    intro c' hc' he
    subst he
    rcases hr : (escapeStep b).reverse with _ | ⟨d, t⟩
    · exact hebne (by simpa using congrArg List.reverse hr)
    · rw [List.reverse_append, List.reverse_cons, List.append_assoc, hr] at hc'
      simp only [List.cons_append, List.head?_cons, Option.some.injEq] at hc'
      have hdb : d ∈ escapeStep b := List.mem_reverse.mp (by rw [hr]; simp)
      rw [hc'] at hdb
      exact heb hdb
  have hstar : starStep (escapeStep a ++ '*' :: escapeStep b) =
      escapeStep a ++ starNoSlashL ++ escapeStep b := by
    rw [ss_append, ss_no_star hea, ss_star, ss_no_star heb,
      show starNoSlashL = ['[', '^', '/', ']', '*'] from rfl]
    simp
  have hnb : '{' ∉ escapeStep a ++ starNoSlashL ++ escapeStep b := by
    intro hm
    rcases List.mem_append.mp hm with hm | hm
    · rcases List.mem_append.mp hm with hm | hm
      · exact hba hm
      · revert hm; decide
    · exact hbb hm
  rw [patternToRegex, patternToRegexStr, hesc, dss_append_single hea heb,
    htrail, hstar, ph_no_brace hnb, List.append_assoc,
    show starNoSlashL ++ escapeStep b = starNoSlashL ++ escapeStep b from rfl,
    pr_esc, pr_star5]
  have hb' := pr_esc b []
  simp only [List.append_nil, pr_nil] at hb'
  rw [hb']

/-- Claim C3: in a compiled pattern, the segment matched by a `**` run may
contain any characters including `/` (any non-line-terminator), while a
remaining single `*` in a non-trailing position matches exactly the runs with
no `/`; the match consumes the whole candidate (anchored `^...$`) and is
case-insensitive (it constrains only the lowercasing of the candidate). -/
theorem C3_wildcard_semantics (a b : List Char)
    (ha : '*' ∉ a) (hb : '*' ∉ b) (ha2 : '{' ∉ a) (hb2 : '{' ∉ b) :
    (∀ c : List Char,
      rmatch (patternToRegex (a ++ '*' :: '*' :: b)) c = true ↔
        ∃ p s q, c = p ++ s ++ q ∧ lowers p = lowers a ∧
          (∀ ch ∈ s, isLineTerm ch = false) ∧ lowers q = lowers b) ∧
    (b ≠ [] → ∀ c : List Char,
      rmatch (patternToRegex (a ++ '*' :: b)) c = true ↔
        ∃ p s q, c = p ++ s ++ q ∧ lowers p = lowers a ∧
          (∀ ch ∈ s, ch ≠ '/') ∧ lowers q = lowers b) := by
  constructor
  · intro c
    rw [patternToRegex_doublestar ha hb ha2 hb2, rmatch_iff]
    constructor
    · intro h
      rcases RMatch_lits_iff.mp h with ⟨p, q₁, hc, hp, h₁⟩
      rcases RMatch_dot_iff.mp h₁ with ⟨sm, q, hq₁, hs, h₂⟩
      exact ⟨p, sm, q, by rw [hc, hq₁, List.append_assoc], hp, hs,
        RMatch_lits_end_iff.mp h₂⟩
    · rintro ⟨p, sm, q, hc, hp, hs, hq⟩
      refine RMatch_lits_iff.mpr ⟨p, sm ++ q, by rw [hc, List.append_assoc], hp, ?_⟩
      exact RMatch_dot_iff.mpr ⟨sm, q, rfl, hs, RMatch_lits_end_iff.mpr hq⟩
  · intro hbne c
    rw [patternToRegex_singlestar ha hb ha2 hb2 hbne, rmatch_iff]
    constructor
    · intro h
      rcases RMatch_lits_iff.mp h with ⟨p, q₁, hc, hp, h₁⟩
      rcases RMatch_star_fwd h₁ rfl with ⟨sm, q, hq₁, hs, h₂⟩
      exact ⟨p, sm, q, by rw [hc, hq₁, List.append_assoc], hp, hs,
        RMatch_lits_end_iff.mp h₂⟩
    · rintro ⟨p, sm, q, hc, hp, hs, hq⟩
      refine RMatch_lits_iff.mpr ⟨p, sm ++ q, by rw [hc, List.append_assoc], hp, ?_⟩
      exact RMatch_star_iff.mpr ⟨sm, q, rfl, hs, RMatch_lits_end_iff.mpr hq⟩

/-- Witness for C3 at concrete inputs: `a.**/b` matches `A./q/z/b` (the `**`
segment `/q/z` contains slashes, case-insensitively), and `r/*.x` with the
star mid-pattern matches `r/abc.x` (slash-free star segment). -/
theorem C3_wildcard_semantics_witness :
    rmatch (patternToRegex (str "a." ++ '*' :: '*' :: str "/b")) (str "A./q/z/b") = true ∧
    rmatch (patternToRegex (str "r/" ++ '*' :: str ".x")) (str "r/abc.x") = true := by
  constructor
  · refine ((C3_wildcard_semantics (str "a.") (str "/b") (by decide) (by decide)
      (by decide) (by decide)).1 (str "A./q/z/b")).mpr
      ⟨str "A.", str "/q/z", str "/b", ?_, ?_, ?_, ?_⟩ <;> decide
  · refine ((C3_wildcard_semantics (str "r/") (str ".x") (by decide) (by decide)
      (by decide) (by decide)).2 (by decide) (str "r/abc.x")).mpr
      ⟨str "r/", str "abc", str ".x", ?_, ?_, ?_, ?_⟩ <;> decide

/-- Claim C2 (evidence of the code bug): `example.com/*` compiles to the
regex source `example\.com(?:/.[^/]*)?` — the `*` inside the appended
suffix `(?:/.*)?` is itself rewritten by the later single-star replacement
to `[^/]*` — so the compiled matcher accepts `example.com` and
`example.com/page` but rejects `example.com/a/b` and `example.com/`,
although the pattern was documented to match every `/`-separated
continuation. -/
theorem C2_trailing_slash_star_eval :
    patternToRegexStr (str "example.com/*") = str "example\\.com(?:/.[^/]*)?" ∧
    rmatch (patternToRegex (str "example.com/*")) (str "example.com") = true ∧
    rmatch (patternToRegex (str "example.com/*")) (str "example.com/page") = true ∧
    rmatch (patternToRegex (str "example.com/*")) (str "example.com/a/b") = false ∧
    rmatch (patternToRegex (str "example.com/*")) (str "example.com/") = false ∧
    rmatch (patternToRegex (str "example.com/*")) (str "example.com2") = false := by
  decide

/-! ## Policy evaluation: `matchesPattern` and `shouldBlockUrl` -/

/-- The parsed-URL components `matchesPattern` uses (`new URL(url)` exposes
`hostname`, `pathname`, `search`).  URL parsing itself stays outside the
embedding; an unparseable URL is represented by `none` (handled by the
`catch` branch of `matchesPattern`). -/
structure UrlParts where
  hostname : List Char
  pathname : List Char
  search : List Char
  deriving DecidableEq

/-- `matchesPattern(url, patterns)`: for each pattern, test the compiled
regex against `hostname + pathname + search` and against the bare hostname,
returning true on the first hit; an unparseable URL returns false. -/
def matchesPattern (parsed : Option UrlParts) (patterns : List (List Char)) : Bool :=
  match parsed with
  | none => false
  | some u =>
    patterns.any (fun p =>
      rmatch (patternToRegex p) (u.hostname ++ u.pathname ++ u.search) ||
      rmatch (patternToRegex p) u.hostname)

/-- The agent-local cached pattern lists (`watchtower_patterns` storage). -/
structure PatternSets where
  allow : List (List Char)
  deny : List (List Char)
  deriving DecidableEq

/-- `shouldBlockUrl(url)`: non-http(s) URLs are never blocked; an
unconfigured device (empty token) never blocks; else a deny match blocks,
else a non-empty allow list with no match blocks, else the URL is allowed.
The URL's parse result is passed explicitly. -/
def shouldBlockUrl (url : List Char) (parsed : Option UrlParts) (token : List Char)
    (ps : PatternSets) : Bool :=
  if ¬(isPrefixL (str "http://") url = true ∨ isPrefixL (str "https://") url = true) then
    false
  else if token = [] then false
  else if 0 < ps.deny.length ∧ matchesPattern parsed ps.deny = true then true
  else if 0 < ps.allow.length then
    if ¬(matchesPattern parsed ps.allow = true) then true else false
  else false

theorem matchesPattern_nil (parsed : Option UrlParts) :
    matchesPattern parsed [] = false := by
  cases parsed <;> simp [matchesPattern]

/-- Claim C1: with a configured token, `shouldBlockUrl` blocks exactly the
http(s) URLs that match a deny pattern or fail a non-empty allow list (so a
deny match blocks even when an allow pattern also matches); non-http(s)
URLs, unconfigured devices, and empty allow plus deny lists always evaluate
to allow. -/
theorem C1_shouldBlockUrl_policy (url : List Char) (parsed : Option UrlParts)
    (token : List Char) (ps : PatternSets) :
    (token ≠ [] →
      (shouldBlockUrl url parsed token ps = true ↔
        ((isPrefixL (str "http://") url = true ∨ isPrefixL (str "https://") url = true) ∧
         (matchesPattern parsed ps.deny = true ∨
           (ps.allow ≠ [] ∧ matchesPattern parsed ps.allow = false))))) ∧
    (¬(isPrefixL (str "http://") url = true ∨ isPrefixL (str "https://") url = true) →
      shouldBlockUrl url parsed token ps = false) ∧
    shouldBlockUrl url parsed [] ps = false ∧
    (ps.allow = [] → ps.deny = [] → shouldBlockUrl url parsed token ps = false) := by
  refine ⟨?_, ?_, ?_, ?_⟩
  · intro htok
    unfold shouldBlockUrl
    by_cases hscheme :
        isPrefixL (str "http://") url = true ∨ isPrefixL (str "https://") url = true
    · rw [if_neg (not_not_intro hscheme), if_neg htok]
      by_cases hdeny : matchesPattern parsed ps.deny = true
      · have hdne : 0 < ps.deny.length := by
          by_contra hle
          have hde : ps.deny = [] := by
            cases hd : ps.deny with
            | nil => rfl
            | cons x l => rw [hd] at hle; simp at hle
          rw [hde, matchesPattern_nil] at hdeny
          exact absurd hdeny (by simp)
        rw [if_pos ⟨hdne, hdeny⟩]
        simp [hscheme, hdeny]
      · rw [if_neg (fun hcon => hdeny hcon.2)]
        by_cases hallow : 0 < ps.allow.length
        · rw [if_pos hallow]
          by_cases hm : matchesPattern parsed ps.allow = true
          · rw [if_neg (not_not_intro hm)]
            simp [hdeny, hm]
          · rw [if_pos hm]
            simp only [Bool.not_eq_true] at hm
            simp only [true_iff, hscheme, true_and]
            refine Or.inr ⟨?_, hm⟩
            intro he
            rw [he] at hallow
            simp at hallow
        · rw [if_neg hallow]
          have hae : ps.allow = [] := by
            cases ha2 : ps.allow with
            | nil => rfl
            | cons x l => rw [ha2] at hallow; simp at hallow
          simp [hdeny, hae]
    · rw [if_pos hscheme]
      simp [hscheme]
  · intro hscheme
    unfold shouldBlockUrl
    rw [if_pos hscheme]
  · unfold shouldBlockUrl
    by_cases hscheme :
        isPrefixL (str "http://") url = true ∨ isPrefixL (str "https://") url = true
    · rw [if_neg (not_not_intro hscheme), if_pos rfl]
    · rw [if_pos hscheme]
  · intro hae hde
    unfold shouldBlockUrl
    by_cases hscheme :
        isPrefixL (str "http://") url = true ∨ isPrefixL (str "https://") url = true
    · rw [if_neg (not_not_intro hscheme)]
      by_cases htok : token = []
      · rw [if_pos htok]
      · rw [if_neg htok, if_neg (by simp [hde]), if_neg (by simp [hae])]
    · rw [if_pos hscheme]

/-- Witness for C1: with token `t`, deny list `[bad.com/*]` and empty allow
list, `http://bad.com/x` evaluates to block, discharging the hypotheses of
the policy theorem at a concrete input. -/
theorem C1_shouldBlockUrl_policy_witness :
    shouldBlockUrl (str "http://bad.com/x")
      (some ⟨str "bad.com", str "/x", str ""⟩) (str "t")
      ⟨[], [str "bad.com/*"]⟩ = true := by
  refine ((C1_shouldBlockUrl_policy (str "http://bad.com/x")
    (some ⟨str "bad.com", str "/x", str ""⟩) (str "t")
    ⟨[], [str "bad.com/*"]⟩).1 (by decide)).mpr ⟨?_, Or.inl ?_⟩ <;> decide

/-! ## Agent sync engine: snapshot application and timer gating -/

/-- One entry of a pattern snapshot as delivered to the agent (an element of
`data.patterns`, with its `type` and `pattern` fields). -/
structure PatMsg where
  type : List Char
  pattern : List Char
  deriving DecidableEq

/-- The categorization loop shared by `fetchPatterns` and the
`patterns_updated` push handler: starting from empty allow and deny lists,
push each entry's pattern onto the list named by its type; entries of any
other type are dropped. -/
def categorizePatterns (msgs : List PatMsg) : PatternSets :=
  msgs.foldl
    (fun acc m =>
      if m.type = str "allow" then { acc with allow := acc.allow ++ [m.pattern] }
      else if m.type = str "deny" then { acc with deny := acc.deny ++ [m.pattern] }
      else acc)
    ⟨[], []⟩

/-- The cache update of `fetchPatterns` (poll path): `setPatterns` stores the
freshly categorized snapshot, without reading the previous cache. -/
def fetchPatterns (cache : PatternSets) (msgs : List PatMsg) : PatternSets :=
  categorizePatterns msgs

/-- The cache update of the `ws.onmessage` handler for `patterns_updated`
(push path): identical rebuild-and-store logic. -/
def wsOnMessage (cache : PatternSets) (msgs : List PatMsg) : PatternSets :=
  categorizePatterns msgs

theorem categorizePatterns_aux (msgs : List PatMsg) : ∀ (acc : PatternSets),
    msgs.foldl
      (fun acc m =>
        if m.type = str "allow" then { acc with allow := acc.allow ++ [m.pattern] }
        else if m.type = str "deny" then { acc with deny := acc.deny ++ [m.pattern] }
        else acc) acc =
    ⟨acc.allow ++ (msgs.filter (fun m => decide (m.type = str "allow"))).map PatMsg.pattern,
     acc.deny ++ (msgs.filter (fun m => decide (m.type = str "deny"))).map PatMsg.pattern⟩ := by
  induction msgs with
  | nil => intro acc; simp
  | cons m msgs ih =>
    intro acc
    have hne : ¬(str "allow" = str "deny") := by decide
    have hne2 : ¬(str "deny" = str "allow") := by decide
    by_cases hall : m.type = str "allow"
    · have hden : ¬m.type = str "deny" := by rw [hall]; decide
      simp [List.foldl_cons, hall, hden, ih, List.filter_cons, hne]
    · by_cases hden : m.type = str "deny"
      · simp [List.foldl_cons, hall, hden, ih, List.filter_cons, hne2]
      · simp [List.foldl_cons, hall, hden, ih, List.filter_cons]

/-- Claim C4: every snapshot application entirely replaces the cached allow
and deny lists — applying snapshot A then snapshot B, in any combination of
the push and poll paths, leaves the cache equal to B's categorized contents
exactly, independently of the previous cache and of A. -/
theorem C4_snapshot_replacement (cache : PatternSets) (A B : List PatMsg) :
    wsOnMessage (wsOnMessage cache A) B = categorizePatterns B ∧
    wsOnMessage (fetchPatterns cache A) B = categorizePatterns B ∧
    fetchPatterns (wsOnMessage cache A) B = categorizePatterns B ∧
    fetchPatterns (fetchPatterns cache A) B = categorizePatterns B ∧
    (categorizePatterns B).allow =
      (B.filter (fun m => decide (m.type = str "allow"))).map PatMsg.pattern ∧
    (categorizePatterns B).deny =
      (B.filter (fun m => decide (m.type = str "deny"))).map PatMsg.pattern := by
  refine ⟨rfl, rfl, rfl, rfl, ?_, ?_⟩ <;>
    simp [categorizePatterns, categorizePatterns_aux B ⟨[], []⟩]

/-- `periodicSync`: invoked on each `syncPatterns` alarm tick; fetches the
snapshot whenever a token is configured (`if (config.token)`), with no check
of the live-connection state.  Returns whether `fetchPatterns` runs. -/
def periodicSyncFetches (token : List Char) (wsConnected : Bool) : Bool :=
  if token = [] then false else true

/-- `periodicHeartbeat`: sends the HTTP heartbeat only when a token is
configured and the live connection is down (`if (config.token && !wsConnected)`). -/
def periodicHeartbeatSends (token : List Char) (wsConnected : Bool) : Bool :=
  if token ≠ [] ∧ wsConnected = false then true else false

/-- `ensureWebSocketConnected`: reconnects when a token is configured and the
connection is down. -/
def ensureWebSocketConnects (token : List Char) (wsConnected : Bool) : Bool :=
  if token ≠ [] ∧ wsConnected = false then true else false

/-- The actions taken by the `chrome.alarms.onAlarm` listener for a given
alarm name and agent state. -/
structure AlarmActions where
  fetch : Bool
  heartbeat : Bool
  reconnect : Bool
  deriving DecidableEq

/-- The alarm dispatcher: `syncPatterns` runs `periodicSync`, `heartbeat`
runs `periodicHeartbeat`, `wsReconnect` runs `ensureWebSocketConnected`. -/
def onAlarm (name token : List Char) (wsConnected : Bool) : AlarmActions :=
  { fetch := if name = str "syncPatterns" then periodicSyncFetches token wsConnected else false
    heartbeat := if name = str "heartbeat" then periodicHeartbeatSends token wsConnected else false
    reconnect := if name = str "wsReconnect" then ensureWebSocketConnects token wsConnected else false }

/-- Counterexample to claim C9: a `syncPatterns` poll tick performs the pull
even while the live connection is established (`wsConnected = true`) —
`periodicSync` checks only the token, unlike `periodicHeartbeat`. -/
theorem C9_counterexample :
    (onAlarm (str "syncPatterns") (str "t") true).fetch = true := by decide

/-- Claim C9 (amended): on every poll tick the pull is performed exactly when
a token is configured, regardless of the live-connection state; only the HTTP
heartbeat tick is gated on no live connection being established. -/
theorem C9_amended_poll_unconditional (token : List Char) (ws : Bool) :
    ((onAlarm (str "syncPatterns") token ws).fetch = true ↔ token ≠ []) ∧
    ((onAlarm (str "heartbeat") token ws).heartbeat = true ↔ token ≠ [] ∧ ws = false) ∧
    (onAlarm (str "syncPatterns") token ws).heartbeat = false ∧
    (onAlarm (str "heartbeat") token ws).fetch = false := by
  refine ⟨?_, ?_, ?_, ?_⟩
  · simp only [onAlarm, if_pos rfl, periodicSyncFetches]
    by_cases h : token = [] <;> simp [h]
  · have e : (onAlarm (str "heartbeat") token ws).heartbeat
        = periodicHeartbeatSends token ws := by simp [onAlarm]
    rw [e, periodicHeartbeatSends]
    by_cases h : token ≠ [] ∧ ws = false
    · rw [if_pos h]
      simp [h]
    · rw [if_neg h]
      simp only [Bool.false_eq_true, false_iff]
      exact h
  · simp [onAlarm, str]
  · simp [onAlarm, str]

/-! ## Backend: devices, liveness, uninstall -/

/-- A row of the `devices` table (the fields the embedded operations use);
time is measured in abstract ticks. -/
structure Dev where
  id : Int
  token : List Char
  name : List Char
  status : List Char
  lastSeen : Option Nat
  deriving DecidableEq

/-- `GetDeviceByToken`: `SELECT ... FROM devices WHERE token = ?` (the first
matching row, no status filter). -/
def getDeviceByToken (store : List Dev) (token : List Char) : Option Dev :=
  store.find? (fun d => decide (d.token = token))

/-- `UpdateDeviceHeartbeat`:
`UPDATE devices SET last_seen = ?, status = 'active' WHERE id = ?` —
unconditional on the previous status. -/
def updateDeviceHeartbeat (now : Nat) (deviceID : Int) (store : List Dev) : List Dev :=
  store.map (fun d =>
    if d.id = deviceID then { d with lastSeen := some now, status := str "active" } else d)

/-- `UpdateDeviceStatus`: `UPDATE devices SET status = ? WHERE id = ?`. -/
def updateDeviceStatus (deviceID : Int) (status : List Char) (store : List Dev) : List Dev :=
  store.map (fun d => if d.id = deviceID then { d with status := status } else d)

/-- The `DeviceHeartbeat` handler behind the token-auth middleware: the token
resolves to a device with no status filter, then `UpdateDeviceHeartbeat`
runs; an unknown token is rejected with no store change.  The same
`UpdateDeviceHeartbeat` call is made by the socket handler on connection and
by the pong handler of the read pump. -/
def deviceHeartbeatHandler (now : Nat) (store : List Dev) (token : List Char) :
    List Dev × Bool :=
  match getDeviceByToken store token with
  | none => (store, false)
  | some d => (updateDeviceHeartbeat now d.id store, true)

/-- The selection predicate of the inactivity sweep:
`status = 'active' AND (last_seen IS NULL OR last_seen < cutoff)`. -/
def isOverdueActive (cutoff : Nat) (d : Dev) : Bool :=
  d.status == str "active" &&
    (match d.lastSeen with
     | none => true
     | some t => decide (t < cutoff))

/-- `MarkInactiveDevices`: first `SELECT name` over the overdue active rows,
then the matching `UPDATE ... SET status = 'inactive'`; returns the selected
names together with the updated table. -/
def markInactiveDevices (cutoff : Nat) (store : List Dev) :
    List (List Char) × List Dev :=
  ((store.filter (isOverdueActive cutoff)).map Dev.name,
   store.map (fun d =>
     if isOverdueActive cutoff d then { d with status := str "inactive" } else d))

/-- Per-device view of one sweep: whether this device is reported as newly
inactive, and its row afterwards. -/
def sweepDevice (cutoff : Nat) (d : Dev) : Bool × Dev :=
  if isOverdueActive cutoff d then (true, { d with status := str "inactive" })
  else (false, d)

/-- The report bits for one device across consecutive sweep ticks with the
given cutoffs, with no intervening heartbeat. -/
def sweepTrace : List Nat → Dev → List Bool
  | [], _ => []
  | c :: cs, d => (sweepDevice c d).1 :: sweepTrace cs (sweepDevice c d).2

/-- Counterexample to claim C5: a heartbeat for an uninstalled device sets
its status back to `active` — `UpdateDeviceHeartbeat` writes
`status = 'active'` unconditionally and neither the token middleware nor the
heartbeat handler inspects the prior status, so `uninstalled` is not
terminal under device-facing operations. -/
theorem C5_counterexample :
    (deviceHeartbeatHandler 5 [⟨1, str "t", str "d", str "uninstalled", none⟩]
        (str "t")).1 =
      [⟨1, str "t", str "d", str "active", some 5⟩] ∧
    (deviceHeartbeatHandler 5 [⟨1, str "t", str "d", str "uninstalled", none⟩]
        (str "t")).2 = true ∧
    str "active" ≠ str "uninstalled" := by decide

theorem sweepDevice_not_active {cutoff : Nat} {d : Dev}
    (h : d.status ≠ str "active") : sweepDevice cutoff d = (false, d) := by
  have hov : isOverdueActive cutoff d = false := by
    unfold isOverdueActive
    rw [beq_eq_false_iff_ne.mpr h]
    rfl
  simp [sweepDevice, hov]

theorem sweepTrace_not_active : ∀ (cs : List Nat) {d : Dev},
    d.status ≠ str "active" → (sweepTrace cs d).count true = 0 := by
  intro cs
  induction cs with
  | nil => intro d _; rfl
  | cons c cs ih =>
    intro d h
    rw [sweepTrace, sweepDevice_not_active h]
    simp only [List.count_cons, ih h]
    rfl

/-- Claim C5 (amended): `uninstalled` persists under repeated uninstall
marking and under the inactivity sweep (which only selects active rows), but
it is not terminal under device-facing heartbeat signals: an explicit
heartbeat, a keepalive pong, or a fresh socket registration all run
`UpdateDeviceHeartbeat`, which sets the device's status to `active`
regardless of the prior status — including `uninstalled`. -/
theorem C5_amended_heartbeat_reactivates (now cutoff : Nat) (id0 : Int)
    (store : List Dev) :
    (∀ d ∈ updateDeviceHeartbeat now id0 store, d.id = id0 →
      d.status = str "active") ∧
    (∀ d ∈ updateDeviceStatus id0 (str "uninstalled") store, d.id = id0 →
      d.status = str "uninstalled") ∧
    (∀ d : Dev, d.status = str "uninstalled" → sweepDevice cutoff d = (false, d)) := by
  refine ⟨?_, ?_, ?_⟩
  · intro d hd hid
    rcases List.mem_map.mp hd with ⟨d₀, hd₀, rfl⟩
    by_cases h : d₀.id = id0
    · simp [h]
    · rw [if_neg h] at hid ⊢
      exact absurd hid h
  · intro d hd hid
    rcases List.mem_map.mp hd with ⟨d₀, hd₀, rfl⟩
    by_cases h : d₀.id = id0
    · simp [h]
    · rw [if_neg h] at hid ⊢
      exact absurd hid h
  · intro d h
    refine sweepDevice_not_active ?_
    rw [h]
    decide

/-- Witness for C5 (amended) at a concrete store: heartbeating the single
uninstalled device yields status `active`. -/
theorem C5_amended_heartbeat_reactivates_witness :
    (⟨1, str "t", str "d", str "active", some 5⟩ : Dev).status = str "active" :=
  (C5_amended_heartbeat_reactivates 5 0 1
      [⟨1, str "t", str "d", str "uninstalled", none⟩]).1
    ⟨1, str "t", str "d", str "active", some 5⟩ (by decide) (by decide)

/-- Claim C6: the sweep factors through the per-device transition — the
reported names are exactly those of the rows the per-device step reports,
and the updated table is the per-device update — and across consecutive
sweep ticks with no intervening heartbeat, an overdue active device is
reported exactly once (on the first tick), while a device that is not
currently active is never reported nor modified. -/
theorem C6_sweep_reports_once (cutoff : Nat) (cutoffs : List Nat) (d : Dev)
    (store : List Dev) :
    markInactiveDevices cutoff store =
      ((store.filter (fun d => (sweepDevice cutoff d).1)).map Dev.name,
       store.map (fun d => (sweepDevice cutoff d).2)) ∧
    (d.status = str "active" → isOverdueActive cutoff d = true →
      (sweepTrace (cutoff :: cutoffs) d).count true = 1) ∧
    (d.status ≠ str "active" →
      sweepDevice cutoff d = (false, d) ∧
      (sweepTrace (cutoff :: cutoffs) d).count true = 0) := by
  refine ⟨?_, ?_, ?_⟩
  · have hfst : (fun d => (sweepDevice cutoff d).1) = isOverdueActive cutoff := by
      funext d₀
      unfold sweepDevice
      by_cases h : isOverdueActive cutoff d₀ = true <;> simp [h]
    have hsnd : ∀ d₀, (sweepDevice cutoff d₀).2 =
        (if isOverdueActive cutoff d₀ then { d₀ with status := str "inactive" } else d₀) := by
      intro d₀
      unfold sweepDevice
      by_cases h : isOverdueActive cutoff d₀ = true <;> simp [h]
    unfold markInactiveDevices
    rw [hfst]
    refine congrArg _ ?_
    refine List.map_congr_left ?_
    intro d₀ _
    rw [hsnd]
  · intro hact hov
    rw [sweepTrace]
    have hstep : sweepDevice cutoff d = (true, { d with status := str "inactive" }) := by
      simp [sweepDevice, hov]
    rw [hstep]
    have hrest : (sweepTrace cutoffs { d with status := str "inactive" }).count true = 0 :=
      sweepTrace_not_active cutoffs (by simp; decide)
    simp [List.count_cons, hrest]
  · intro h
    refine ⟨sweepDevice_not_active h, sweepTrace_not_active _ h⟩

/-- Witness for C6 at a concrete device: an active device last seen at tick 0
is reported exactly once over four sweeps with cutoff 5 and later. -/
theorem C6_sweep_reports_once_witness :
    (sweepTrace (5 :: [6, 7, 8]) ⟨1, str "t", str "d", str "active", some 0⟩).count true
      = 1 :=
  (C6_sweep_reports_once 5 [6, 7, 8] ⟨1, str "t", str "d", str "active", some 0⟩ []).2.1
    (by decide) (by decide)

/-- The `DeviceUninstall` handler: the token comes from the query string when
present, otherwise from the (token-auth) request context; a resolved device
is marked `uninstalled` (a store error would only be logged); the response
reports success in every case, valid token or not. -/
def deviceUninstallHandler (store : List Dev) (queryToken : List Char)
    (ctxDevice : Option Dev) : List Dev × Bool :=
  if queryToken = [] then
    match ctxDevice with
    | some d => (updateDeviceStatus d.id (str "uninstalled") store, true)
    | none => (store, true)
  else
    match getDeviceByToken store queryToken with
    | some d => (updateDeviceStatus d.id (str "uninstalled") store, true)
    | none => (store, true)

theorem updateDeviceStatus_idem (id0 : Int) (s : List Char) (store : List Dev) :
    updateDeviceStatus id0 s (updateDeviceStatus id0 s store) =
      updateDeviceStatus id0 s store := by
  unfold updateDeviceStatus
  rw [List.map_map]
  refine List.map_congr_left ?_
  intro d _
  by_cases h : d.id = id0 <;> simp [h]

theorem getDeviceByToken_updateStatus (id0 : Int) (s : List Char)
    (store : List Dev) (tok : List Char) :
    getDeviceByToken (updateDeviceStatus id0 s store) tok =
      (getDeviceByToken store tok).map
        (fun d => if d.id = id0 then { d with status := s } else d) := by
  unfold getDeviceByToken updateDeviceStatus
  induction store with
  | nil => rfl
  | cons e t ih =>
    have htok : (if e.id = id0 then { e with status := s } else e).token = e.token := by
      by_cases h : e.id = id0 <;> simp [h]
    by_cases hm : e.token = tok
    · rw [List.map_cons,
        List.find?_cons_of_pos _ (by simp only [htok]; simp [hm]),
        List.find?_cons_of_pos _ (by simp [hm])]
      rfl
    · rw [List.map_cons,
        List.find?_cons_of_neg _ (by simp only [htok]; simp [hm]),
        List.find?_cons_of_neg _ (by simp [hm])]
      exact ih

theorem updateDeviceStatus_mem_id {id0 : Int} {s : List Char} {store : List Dev}
    {e : Dev} (he : e ∈ updateDeviceStatus id0 s store) (hid : e.id = id0) :
    e.status = s := by
  rcases List.mem_map.mp he with ⟨d₀, hd₀, rfl⟩
  by_cases h : d₀.id = id0
  · simp [h]
  · rw [if_neg h] at hid ⊢
    exact absurd hid h

/-- Claim C7: the uninstall endpoint reports success for every token (valid,
invalid or absent); a second identical call leaves the store unchanged and
still succeeds (idempotence — the device still resolves, since tokens are
untouched); and whenever the token (or the auth context) resolves to a
device, every row with that device's id ends up `uninstalled`. -/
theorem C7_uninstall_idempotent_success (store : List Dev) (tok : List Char)
    (ctx : Option Dev) :
    (deviceUninstallHandler store tok ctx).2 = true ∧
    deviceUninstallHandler ((deviceUninstallHandler store tok ctx).1) tok ctx =
      ((deviceUninstallHandler store tok ctx).1, true) ∧
    (tok ≠ [] → ∀ d, getDeviceByToken store tok = some d →
      ∀ e ∈ (deviceUninstallHandler store tok ctx).1, e.id = d.id →
        e.status = str "uninstalled") ∧
    (tok = [] → ∀ d, ctx = some d →
      ∀ e ∈ (deviceUninstallHandler store tok ctx).1, e.id = d.id →
        e.status = str "uninstalled") := by
  refine ⟨?_, ?_, ?_, ?_⟩
  · unfold deviceUninstallHandler
    by_cases hq : tok = []
    · rw [if_pos hq]
      cases ctx <;> rfl
    · rw [if_neg hq]
      cases getDeviceByToken store tok <;> rfl
  · by_cases hq : tok = []
    · subst hq
      cases ctx with
      | none => rfl
      | some d =>
        have e1 : deviceUninstallHandler store [] (some d) =
            (updateDeviceStatus d.id (str "uninstalled") store, true) := rfl
        rw [e1]
        show deviceUninstallHandler
          (updateDeviceStatus d.id (str "uninstalled") store) [] (some d) = _
        rw [show deviceUninstallHandler
            (updateDeviceStatus d.id (str "uninstalled") store) [] (some d) =
            (updateDeviceStatus d.id (str "uninstalled")
              (updateDeviceStatus d.id (str "uninstalled") store), true) from rfl]
        rw [updateDeviceStatus_idem]
    · cases hfind : getDeviceByToken store tok with
      | none =>
        have e1 : deviceUninstallHandler store tok ctx = (store, true) := by
          unfold deviceUninstallHandler
          rw [if_neg hq, hfind]
        rw [e1]
        show deviceUninstallHandler store tok ctx = (store, true)
        exact e1
      | some d =>
        have e1 : deviceUninstallHandler store tok ctx =
            (updateDeviceStatus d.id (str "uninstalled") store, true) := by
          unfold deviceUninstallHandler
          rw [if_neg hq, hfind]
        rw [e1]
        show deviceUninstallHandler
          (updateDeviceStatus d.id (str "uninstalled") store) tok ctx = _
        have hfind2 : getDeviceByToken
            (updateDeviceStatus d.id (str "uninstalled") store) tok =
            some { d with status := str "uninstalled" } := by
          rw [getDeviceByToken_updateStatus, hfind]
          simp
        unfold deviceUninstallHandler
        rw [if_neg hq, hfind2]
        show (updateDeviceStatus ({ d with status := str "uninstalled" } : Dev).id
            (str "uninstalled") (updateDeviceStatus d.id (str "uninstalled") store), true) = _
        rw [show ({ d with status := str "uninstalled" } : Dev).id = d.id from rfl,
          updateDeviceStatus_idem]
  · intro hq d hd e he hid
    unfold deviceUninstallHandler at he
    rw [if_neg hq, hd] at he
    exact updateDeviceStatus_mem_id he hid
  · intro hq d hd e he hid
    unfold deviceUninstallHandler at he
    rw [if_pos hq, hd] at he
    exact updateDeviceStatus_mem_id he hid

/-- Witness for C7 at a concrete store: uninstalling by the valid token `t`
leaves the single device uninstalled. -/
theorem C7_uninstall_idempotent_success_witness :
    (⟨1, str "t", str "n", str "uninstalled", none⟩ : Dev).status = str "uninstalled" :=
  (C7_uninstall_idempotent_success [⟨1, str "t", str "n", str "active", none⟩]
      (str "t") none).2.2.1 (by decide)
    ⟨1, str "t", str "n", str "active", none⟩ (by decide)
    ⟨1, str "t", str "n", str "uninstalled", none⟩ (by decide) (by decide)

/-! ## Backend: access requests and approval -/

/-- A row of the `requests` table. -/
structure Req where
  id : Int
  deviceID : Int
  url : List Char
  suggestedPattern : List Char
  status : List Char
  resolvedAt : Option Nat
  deriving DecidableEq

/-- A row of the `patterns` table (the fields the approval path writes). -/
structure Pat where
  deviceID : Int
  pattern : List Char
  type : List Char
  enabled : Bool
  expiresAt : Option Nat
  deriving DecidableEq

/-- The backend store slice used by the request workflow. -/
structure BackendState where
  devices : List Dev
  requests : List Req
  patterns : List Pat
  deriving DecidableEq

/-- `GetRequestByID`: `SELECT ... FROM requests r JOIN devices d ON
r.device_id = d.id WHERE r.id = ?` — found only when the request exists and
its device row does too. -/
def getRequestByID (st : BackendState) (id0 : Int) : Option Req :=
  match st.requests.find? (fun r => decide (r.id = id0)) with
  | none => none
  | some r =>
    if (st.devices.find? (fun d => decide (d.id = r.deviceID))).isSome then some r
    else none

/-- `parseDuration`, in minutes; `none` models the `false` validity flag.
`permanent` and the empty string parse as zero minutes. -/
def parseDuration (duration : List Char) (customMinutes : Int) : Option Int :=
  if duration = str "15m" then some 15
  else if duration = str "30m" then some 30
  else if duration = str "1h" then some 60
  else if duration = str "8h" then some 480
  else if duration = str "24h" then some 1440
  else if duration = str "1w" then some 10080
  else if duration = str "custom" then
    if 0 < customMinutes then some customMinutes else none
  else if duration = str "permanent" ∨ duration = [] then some 0
  else none

/-- `models.ApproveRequest` / `models.DenyRequest`: the unconditional
`UPDATE requests SET status = ?, resolved_at = ? WHERE id = ?`. -/
def setRequestStatus (id0 : Int) (status : List Char) (now : Nat)
    (reqs : List Req) : List Req :=
  reqs.map (fun r =>
    if r.id = id0 then { r with status := status, resolvedAt := some now } else r)

/-- `CreatePattern`: the INSERT of an enabled pattern row. -/
def createPattern (deviceID : Int) (pattern ty : List Char) (expiresAt : Option Nat)
    (pats : List Pat) : List Pat :=
  pats ++ [⟨deviceID, pattern, ty, true, expiresAt⟩]

/-- The `ApproveRequest` handler: reject an empty pattern, default the type
to `allow`, look the request up (404 when absent), validate and apply the
duration, then create the pattern and mark the request approved — with no
check of the request's current status.  Returns the new state and whether
the response was success. -/
def approveRequestHandler (now : Nat) (id0 : Int)
    (bodyPattern bodyType bodyDuration : List Char) (customMinutes : Int)
    (st : BackendState) : BackendState × Bool :=
  if bodyPattern = [] then (st, false)
  else
    let ty := if bodyType = [] then str "allow" else bodyType
    match getRequestByID st id0 with
    | none => (st, false)
    | some req =>
      if bodyDuration ≠ [] ∧ bodyDuration ≠ str "permanent" then
        match parseDuration bodyDuration customMinutes with
        | none => (st, false)
        | some dur =>
          let expiresAt := if 0 < dur then some (now + dur.toNat) else none
          ({ st with
              patterns := createPattern req.deviceID bodyPattern ty expiresAt st.patterns
              requests := setRequestStatus id0 (str "approved") now st.requests }, true)
      else
        ({ st with
            patterns := createPattern req.deviceID bodyPattern ty none st.patterns
            requests := setRequestStatus id0 (str "approved") now st.requests }, true)

/-- The `DenyRequest` handler: unconditionally marks the request denied and
reports success. -/
def denyRequestHandler (now : Nat) (id0 : Int) (st : BackendState) :
    BackendState × Bool :=
  ({ st with requests := setRequestStatus id0 (str "denied") now st.requests }, true)

/-- A store holding one device and one already-denied request for it. -/
def c8State : BackendState :=
  ⟨[⟨1, str "t", str "d", str "active", none⟩],
   [⟨1, 1, str "http://x.com/p", str "x.com/*", str "denied", some 0⟩],
   []⟩

/-- Counterexample to claim C8: approving
a request whose status is already the terminal `denied` succeeds and
overwrites the status with `approved` (and creates the pattern), so a
terminal state is changed by a subsequent approve. -/
theorem C8_counterexample :
    ((approveRequestHandler 7 1 (str "x.com/*") (str "allow") (str "permanent") 0
        c8State).1.requests.map Req.status) = [str "approved"] ∧
    (approveRequestHandler 7 1 (str "x.com/*") (str "allow") (str "permanent") 0
        c8State).2 = true ∧
    c8State.requests.map Req.status = [str "denied"] ∧
    str "denied" ≠ str "approved" := by decide

theorem setRequestStatus_mem_id {id0 : Int} {s : List Char} {now : Nat}
    {reqs : List Req} {r : Req} (hr : r ∈ setRequestStatus id0 s now reqs)
    (hid : r.id = id0) : r.status = s ∧ r.resolvedAt = some now := by
  rcases List.mem_map.mp hr with ⟨r₀, hr₀, rfl⟩
  by_cases h : r₀.id = id0
  · simp [h]
  · rw [if_neg h] at hid ⊢
    exact absurd hid h

/-- Claim C8 (amended): approve and deny set the request's status
unconditionally, so a prior terminal state is overwritten rather than
preserved; on a successful approval the pattern insertion and the approved
transition happen together (one more pattern row, every row with the
request's id approved and stamped), and on every failed validation (empty
pattern, unknown request, invalid duration) the state is fully unchanged. -/
theorem C8_amended_requests (now : Nat) (id0 : Int) (p ty du : List Char)
    (cm : Int) (st : BackendState) :
    ((approveRequestHandler now id0 p ty du cm st).2 = true →
      (approveRequestHandler now id0 p ty du cm st).1.patterns.length =
          st.patterns.length + 1 ∧
      (∀ r ∈ (approveRequestHandler now id0 p ty du cm st).1.requests,
        r.id = id0 → r.status = str "approved" ∧ r.resolvedAt = some now)) ∧
    ((approveRequestHandler now id0 p ty du cm st).2 = false →
      (approveRequestHandler now id0 p ty du cm st).1 = st) ∧
    (∀ r ∈ (denyRequestHandler now id0 st).1.requests,
      r.id = id0 → r.status = str "denied" ∧ r.resolvedAt = some now) ∧
    (denyRequestHandler now id0 st).2 = true := by
  refine ⟨?_, ?_, ?_, rfl⟩
  · intro hok
    unfold approveRequestHandler at hok ⊢
    by_cases hp : p = []
    · rw [if_pos hp] at hok
      exact absurd hok (by simp)
    · rw [if_neg hp] at hok ⊢
      cases hreq : getRequestByID st id0 with
      | none => rw [hreq] at hok; simp at hok
      | some req =>
        rw [hreq] at hok
        dsimp only at hok ⊢
        by_cases hdu : du ≠ [] ∧ du ≠ str "permanent"
        · rw [if_pos hdu] at hok ⊢
          cases hpd : parseDuration du cm with
          | none => rw [hpd] at hok; simp at hok
          | some dur =>
            rw [hpd] at hok
            dsimp only at hok ⊢
            refine ⟨by simp [createPattern], ?_⟩
            intro r hr hid
            exact setRequestStatus_mem_id hr hid
        · rw [if_neg hdu] at hok ⊢
          refine ⟨by simp [createPattern], ?_⟩
          intro r hr hid
          exact setRequestStatus_mem_id hr hid
  · intro hok
    unfold approveRequestHandler at hok ⊢
    by_cases hp : p = []
    · rw [if_pos hp] at hok ⊢
    · rw [if_neg hp] at hok ⊢
      cases hreq : getRequestByID st id0 with
      | none => rfl
      | some req =>
        rw [hreq] at hok
        dsimp only at hok ⊢
        by_cases hdu : du ≠ [] ∧ du ≠ str "permanent"
        · rw [if_pos hdu] at hok ⊢
          cases hpd : parseDuration du cm with
          | none => rfl
          | some dur => rw [hpd] at hok; simp at hok
        · rw [if_neg hdu] at hok
          simp at hok
  · intro r hr hid
    exact setRequestStatus_mem_id hr hid

/-- Witness for C8 (amended) at the concrete denied-request store: the
successful approval added one pattern row. -/
theorem C8_amended_requests_witness :
    (approveRequestHandler 7 1 (str "x.com/*") (str "allow") (str "permanent") 0
        c8State).1.patterns.length = c8State.patterns.length + 1 :=
  ((C8_amended_requests 7 1 (str "x.com/*") (str "allow") (str "permanent") 0
      c8State).1 (by decide)).1

/-! ## Connection hub: register, unregister, IsDeviceConnected -/

/-- The hub registry `clients map[int64]map[*Client]bool`, embedded as an
association list from device id to the device's session set; sessions are
abstract client identifiers. -/
structure Hub where
  clients : List (Int × List Nat)
  deriving DecidableEq

/-- Map lookup `h.clients[deviceID]` (first entry with the key). -/
def hubLookup (h : Hub) (dev : Int) : Option (List Nat) :=
  (h.clients.find? (fun e => decide (e.1 = dev))).map Prod.snd

/-- The `register` branch of `Hub.Run`: create the device's empty session
set when absent, then put the client in it. -/
def hubRegister (dev : Int) (c : Nat) (h : Hub) : Hub :=
  match hubLookup h dev with
  | none => ⟨h.clients ++ [(dev, [c])]⟩
  | some _ =>
    ⟨h.clients.map (fun e =>
      if e.1 = dev then (e.1, if c ∈ e.2 then e.2 else e.2 ++ [c]) else e)⟩

/-- The `unregister` branch of `Hub.Run`: when the session is present,
remove it and close its send queue (the returned flag); when the device's
session set becomes empty, drop the device-keyed entry. -/
def hubUnregister (dev : Int) (c : Nat) (h : Hub) : Hub × Bool :=
  match hubLookup h dev with
  | none => (h, false)
  | some s =>
    if c ∈ s then
      if s.erase c = [] then
        (⟨h.clients.filter (fun e => !decide (e.1 = dev))⟩, true)
      else
        (⟨h.clients.map (fun e => if e.1 = dev then (e.1, e.2.erase c) else e)⟩, true)
    else (h, false)

/-- `IsDeviceConnected`: whether the device id is a key of the clients map. -/
def IsDeviceConnected (h : Hub) (dev : Int) : Bool := (hubLookup h dev).isSome

/-- The operations the hub's main loop serializes. -/
inductive HubOp where
  | register (dev : Int) (c : Nat)
  | unregister (dev : Int) (c : Nat)
  deriving DecidableEq

def applyOp (h : Hub) : HubOp → Hub
  | .register dev c => hubRegister dev c h
  | .unregister dev c => (hubUnregister dev c h).1

/-- The hub state after a sequence of register/unregister operations,
starting from the empty registry of a fresh hub. -/
def applyOps (ops : List HubOp) : Hub := ops.foldl applyOp ⟨[]⟩

/-- The session set of a device (empty when the device has no entry). -/
def sessionsOf (h : Hub) (dev : Int) : List Nat := (hubLookup h dev).getD []

/-- Registry well-formedness: device keys are unique and no entry holds an
empty session set. -/
def HubInv (h : Hub) : Prop :=
  (h.clients.map Prod.fst).Nodup ∧ ∀ e ∈ h.clients, e.2 ≠ []

theorem hubLookup_entry {h : Hub} {dev : Int} {s : List Nat}
    (hl : hubLookup h dev = some s) :
    ∃ e ∈ h.clients, e.1 = dev ∧ e.2 = s := by
  unfold hubLookup at hl
  cases hf : h.clients.find? (fun e => decide (e.1 = dev)) with
  | none => rw [hf] at hl; simp at hl
  | some e =>
    rw [hf] at hl
    simp only [Option.map_some', Option.some.injEq] at hl
    refine ⟨e, List.mem_of_find?_eq_some hf, ?_, hl⟩
    have := List.find?_some hf
    simpa using this

theorem assoc_key_unique : ∀ {l : List (Int × List Nat)},
    (l.map Prod.fst).Nodup → ∀ {e₁ e₂ : Int × List Nat},
    e₁ ∈ l → e₂ ∈ l → e₁.1 = e₂.1 → e₁ = e₂ := by
  intro l
  induction l with
  | nil => intro _ e₁ e₂ h₁; simp at h₁
  | cons a t ih =>
    intro hnd e₁ e₂ h₁ h₂ hk
    simp only [List.map_cons, List.nodup_cons] at hnd
    rcases List.mem_cons.mp h₁ with h₁ | h₁
    · rcases List.mem_cons.mp h₂ with h₂ | h₂
      · rw [h₁, h₂]
      · exfalso
        have hm : e₂.1 ∈ t.map Prod.fst := List.mem_map_of_mem Prod.fst h₂
        rw [h₁] at hk
        rw [← hk] at hm
        exact hnd.1 hm
    · rcases List.mem_cons.mp h₂ with h₂ | h₂
      · exfalso
        have hm : e₁.1 ∈ t.map Prod.fst := List.mem_map_of_mem Prod.fst h₁
        rw [h₂] at hk
        rw [hk] at hm
        exact hnd.1 hm
      · exact ih hnd.2 h₁ h₂ hk

theorem hubRegister_inv {h : Hub} (hinv : HubInv h) (dev : Int) (c : Nat) :
    HubInv (hubRegister dev c h) := by
  unfold hubRegister
  cases hl : hubLookup h dev with
  | none =>
    have hfind : h.clients.find? (fun e => decide (e.1 = dev)) = none := by
      unfold hubLookup at hl
      cases hf : h.clients.find? (fun e => decide (e.1 = dev)) with
      | none => rfl
      | some e' => rw [hf] at hl; simp at hl
    have hnk : ∀ e ∈ h.clients, e.1 ≠ dev := by
      intro e he
      have := List.find?_eq_none.mp hfind e he
      simpa using this
    constructor
    · rw [List.map_append]
      rw [List.nodup_append]
      refine ⟨hinv.1, by simp, ?_⟩
      intro a ha
      simp only [List.map_cons, List.map_nil, List.mem_singleton]
      rcases List.mem_map.mp ha with ⟨e, he, rfl⟩
      exact fun hc => hnk e he (by simpa using hc)
    · intro e he
      rcases List.mem_append.mp he with he | he
      · exact hinv.2 e he
      · simp only [List.mem_singleton] at he
        subst he
        simp
  | some s =>
    constructor
    · have : (h.clients.map (fun e =>
          if e.1 = dev then (e.1, if c ∈ e.2 then e.2 else e.2 ++ [c]) else e)).map
            Prod.fst = h.clients.map Prod.fst := by
        rw [List.map_map]
        refine List.map_congr_left ?_
        intro e _
        by_cases hk : e.1 = dev <;> simp [hk]
      rw [this]
      exact hinv.1
    · intro e he
      rcases List.mem_map.mp he with ⟨e₀, he₀, rfl⟩
      by_cases hk : e₀.1 = dev
      · rw [if_pos hk]
        by_cases hc : c ∈ e₀.2
        · simpa [hc] using hinv.2 e₀ he₀
        · simp [hc]
      · rw [if_neg hk]
        exact hinv.2 e₀ he₀

theorem hubUnregister_inv {h : Hub} (hinv : HubInv h) (dev : Int) (c : Nat) :
    HubInv (hubUnregister dev c h).1 := by
  unfold hubUnregister
  cases hl : hubLookup h dev with
  | none => exact hinv
  | some s =>
    dsimp only
    by_cases hc : c ∈ s
    · rw [if_pos hc]
      by_cases hemp : s.erase c = []
      · rw [if_pos hemp]
        constructor
        · exact List.Nodup.sublist ((List.filter_sublist _).map Prod.fst) hinv.1
        · intro e he
          exact hinv.2 e (List.mem_of_mem_filter he)
      · rw [if_neg hemp]
        constructor
        · have : (h.clients.map (fun e =>
              if e.1 = dev then (e.1, e.2.erase c) else e)).map Prod.fst =
              h.clients.map Prod.fst := by
            rw [List.map_map]
            refine List.map_congr_left ?_
            intro e _
            by_cases hk : e.1 = dev <;> simp [hk]
          rw [this]
          exact hinv.1
        · intro e he
          rcases List.mem_map.mp he with ⟨e₀, he₀, rfl⟩
          by_cases hk : e₀.1 = dev
          · rw [if_pos hk]
            rcases hubLookup_entry hl with ⟨e₁, he₁, hk₁, hs₁⟩
            have : e₀ = e₁ := assoc_key_unique hinv.1 he₀ he₁ (by rw [hk, hk₁])
            subst this
            rw [hs₁]
            exact fun hx => hemp hx
          · rw [if_neg hk]
            exact hinv.2 e₀ he₀
    · rw [if_neg hc]
      exact hinv

theorem applyOps_inv (ops : List HubOp) : HubInv (applyOps ops) := by
  have hgen : ∀ (l : List HubOp) (h : Hub), HubInv h → HubInv (l.foldl applyOp h) := by
    intro l
    induction l with
    | nil => intro h hinv; exact hinv
    | cons op l ih =>
      intro h hinv
      refine ih _ ?_
      cases op with
      | register dev c => exact hubRegister_inv hinv dev c
      | unregister dev c => exact hubUnregister_inv hinv dev c
  refine hgen ops ⟨[]⟩ ⟨by simp, by simp⟩

/-- Claim C10: after any sequence of register and unregister operations from
the fresh hub, every entry of the clients map maps to a non-empty session
set; `IsDeviceConnected` answers exactly whether at least one session is
registered for the device; and unregistering a device's sole session removes
the device-keyed entry and closes the session's send queue. -/
theorem C10_hub_registry_invariant (ops : List HubOp) (dev : Int) :
    (∀ e ∈ (applyOps ops).clients, e.2 ≠ []) ∧
    (IsDeviceConnected (applyOps ops) dev = true ↔
      ∃ c, c ∈ sessionsOf (applyOps ops) dev) ∧
    (∀ (h : Hub) (c : Nat), hubLookup h dev = some [c] →
      hubUnregister dev c h =
        (⟨h.clients.filter (fun e => !decide (e.1 = dev))⟩, true) ∧
      hubLookup (hubUnregister dev c h).1 dev = none) := by
  refine ⟨(applyOps_inv ops).2, ?_, ?_⟩
  · constructor
    · intro hconn
      unfold IsDeviceConnected at hconn
      cases hl : hubLookup (applyOps ops) dev with
      | none => rw [hl] at hconn; simp at hconn
      | some s =>
        rcases hubLookup_entry hl with ⟨e, he, _, hs⟩
        have hne : s ≠ [] := hs ▸ (applyOps_inv ops).2 e he
        rcases List.exists_mem_of_ne_nil s hne with ⟨c, hc⟩
        exact ⟨c, by simp [sessionsOf, hl, hc]⟩
    · rintro ⟨c, hc⟩
      unfold IsDeviceConnected
      cases hl : hubLookup (applyOps ops) dev with
      | none => simp [sessionsOf, hl] at hc
      | some s => simp
  · intro h c hl
    have hstep : hubUnregister dev c h =
        (⟨h.clients.filter (fun e => !decide (e.1 = dev))⟩, true) := by
      unfold hubUnregister
      rw [hl]
      dsimp only
      rw [if_pos (List.mem_singleton.mpr rfl)]
      rw [if_pos (by simp)]
    refine ⟨hstep, ?_⟩
    rw [hstep]
    unfold hubLookup
    have : (h.clients.filter (fun e => !decide (e.1 = dev))).find?
        (fun e => decide (e.1 = dev)) = none := by
      rw [List.find?_eq_none]
      intro e he
      have := List.of_mem_filter he
      simpa using this
    rw [this]
    rfl

/-- Witness for C10: registering one session makes the device connected. -/
theorem C10_hub_registry_invariant_witness :
    IsDeviceConnected (applyOps [HubOp.register 1 0]) 1 = true :=
  ((C10_hub_registry_invariant [HubOp.register 1 0] 1).2.1).mpr ⟨0, by decide⟩

end Browsedower
